import Mathlib

/-!
Verification of `thomasqvalue.py` (Thomas Q-value calculator).

The Python source computes an information-load metric ("Q-value") for
elementary arithmetic: it converts the operands to decimal digit strings,
zero-pads them to equal length, walks the digit positions from least
significant to most significant threading a carry, and sums `log10` of the
"constellation" value produced at each position.  The search functions
repeatedly draw random operand pairs and return the first whose Q-value lies
in a target interval.

Embedding notes:
* `str(n)` followed by indexing from the last character is embedded as a
  little-endian digit list (`pyDigits`); `zfill` becomes appending zeros at
  the little-endian tail (`zfill`).
* Each digit loop is split into a computable function producing the list of
  natural-number constellation sums (one per non-trivial position), and a
  `Real`-valued wrapper summing `Real.logb 10` over that list, mirroring
  `math.log10`.  Python floats are modelled as exact reals.
* `None` results become `Option.none`.
* The `random.randint` draws of a search are supplied as an explicit oracle
  list of candidate pairs; the trial budget is the length of that list.
  The source is Python 2 (`print` statements), where `None >= lower` is
  `False` for numeric `lower`, so a `None` Q-value simply fails the range
  test; the embedding's `none` branch recurses accordingly.
-/

/-- Little-endian decimal digits of `n`, with `fuel` bounding the recursion
depth (`fuel ≥ n` suffices).  Mirrors repeated `% 10` / `// 10`. -/
def digitsLE : ℕ → ℕ → List ℕ
  | _, 0 => []
  | 0, _ + 1 => []
  | fuel + 1, n + 1 => (n + 1) % 10 :: digitsLE fuel ((n + 1) / 10)

/-- The digit list of `str(n)` in Python, least-significant first.
`str(0) = "0"` has the single digit `0`. -/
def pyDigits (n : ℕ) : List ℕ :=
  if n = 0 then [0] else digitsLE n n

/-- `str.zfill`: left-pads the decimal string with zeros, i.e. appends zeros
at the tail of the little-endian digit list. -/
def zfill (l : List ℕ) (len : ℕ) : List ℕ :=
  l ++ List.replicate (len - l.length) 0

/-- The aligned digit pairs of `n1` and `n2` (least-significant first), as
produced by the zero-padding prologue of `q_addition` / `q_subtraction`. -/
def alignedPairs (a b : ℕ) : List (ℕ × ℕ) :=
  let d1 := pyDigits a
  let d2 := pyDigits b
  let len := max d1.length d2.length
  (zfill d1 len).zip (zfill d2 len)

/-- One digit position of `q_addition`'s loop: given `(d1, d2)` and the
incoming carry, returns the optional constellation sum (none when the
position is trivial) and the outgoing carry. -/
def addStep (d1 d2 carry : ℕ) : Option ℕ × ℕ :=
  if (d1 = 0 ∨ d2 = 0) ∧ carry = 0 then (none, carry)
  else if d1 + d2 + carry < 10 then (some (d1 + d2 + (d1 + d2) + carry), 0)
  else (some (d1 + d2 + (d1 + d2) + 10 + carry), 1)

/-- One digit position of `q_subtraction`'s loop. -/
def subStep (d1 d2 carry : ℕ) : Option ℕ × ℕ :=
  if d2 = 0 ∧ carry = 0 then (none, carry)
  else if 0 ≤ (d1 : ℤ) - d2 - carry then
    (some (d1 + d2 + ((d1 : ℤ) - d2).natAbs + carry), 0)
  else (some (d1 + d2 + ((d1 : ℤ) - d2).natAbs + 10 + carry), 1)

/-- Folds a per-position step over the aligned digit pairs, threading the
carry and collecting the non-trivial constellation sums in loop order. -/
def stepTerms (step : ℕ → ℕ → ℕ → Option ℕ × ℕ) :
    List (ℕ × ℕ) → ℕ → List ℕ
  | [], _ => []
  | p :: rest, carry =>
    match step p.1 p.2 carry with
    | (none, c) => stepTerms step rest c
    | (some t, c) => t :: stepTerms step rest c

/-- The constellation sums of `q_addition n1 n2`, or `none` on the invalid
input guard `not (n1 > 0 and n2 > 0)`. -/
def q_additionTerms (n1 n2 : ℤ) : Option (List ℕ) :=
  if 0 < n1 ∧ 0 < n2 then
    some (stepTerms addStep (alignedPairs n1.toNat n2.toNat) 0)
  else none

/-- `q_addition`: `Q[n1+n2]`, the sum of `log10` over the constellation
sums, or `none` for invalid input. -/
noncomputable def q_addition (n1 n2 : ℤ) : Option ℝ :=
  (q_additionTerms n1 n2).map fun l =>
    (l.map fun t : ℕ => Real.logb 10 (t : ℝ)).sum

/-- The constellation sums of `q_subtraction n1 n2`, or `none` on the
invalid input guard `not (n1 > 0 and n2 > 0 and n2 < n1)`. -/
def q_subtractionTerms (n1 n2 : ℤ) : Option (List ℕ) :=
  if 0 < n1 ∧ 0 < n2 ∧ n2 < n1 then
    some (stepTerms subStep (alignedPairs n1.toNat n2.toNat) 0)
  else none

/-- `q_subtraction`: `Q[n1-n2]`, or `none` for invalid input. -/
noncomputable def q_subtraction (n1 n2 : ℤ) : Option ℝ :=
  (q_subtractionTerms n1 n2).map fun l =>
    (l.map fun t : ℕ => Real.logb 10 (t : ℝ)).sum

/-- The digit loop of `q_multiplication`: processes the multiplicand's
digits least-significant first (an empty `rest` marks the final,
most-significant digit, index `0` in the source), returning the list of
`(constellation sum, outgoing carry)` pairs in loop order. -/
def multSteps (x : ℕ) : List ℕ → ℕ → List (ℕ × ℕ)
  | [], _ => []
  | m :: rest, carry =>
    if x * m + carry < 10 then
      (x + m + x * m + carry, 0) :: multSteps x rest 0
    else if rest = [] ∧ carry = 0 then
      (x + m + x * m, carry) :: multSteps x rest carry
    else
      (if (x * m + carry) % 10 = 0 then
        x + m + x * m + carry + (x * m + carry)
      else if rest = [] then
        x + m + x * m + carry + (x * m + carry)
      else if 0 < carry then
        x + m + x * m + carry + (x * m + carry) +
          (x * m + carry - (x * m + carry) % 10) + (x * m + carry) % 10
      else
        x + m + x * m + (x * m + carry - (x * m + carry) % 10) +
          (x * m + carry) % 10,
      (x * m + carry - (x * m + carry) % 10) / 10) ::
        multSteps x rest ((x * m + carry - (x * m + carry) % 10) / 10)

/-- The `(constellation sum, outgoing carry)` trace of
`q_multiplication x multiplicand`, or `none` on the invalid input guard
`x < 2 or x > 9`. -/
def q_multiplicationSteps (x : ℤ) (multiplicand : ℕ) : Option (List (ℕ × ℕ)) :=
  if x < 2 ∨ 9 < x then none
  else some (multSteps x.toNat (pyDigits multiplicand) 0)

/-- `q_multiplication`: `Q[x*multiplicand]`, or `none` for invalid input. -/
noncomputable def q_multiplication (x : ℤ) (multiplicand : ℕ) : Option ℝ :=
  (q_multiplicationSteps x multiplicand).map fun l =>
    (l.map fun p : ℕ × ℕ => Real.logb 10 (p.1 : ℝ)).sum

/-- Whether an optional Q-value passes the range test
`q >= lower and q <= upper` (in Python 2 a `None` Q-value compares below
every number, so it fails the test). -/
def qHit (q : Option ℝ) (lower upper : ℝ) : Prop :=
  match q with
  | none => False
  | some v => lower ≤ v ∧ v ≤ upper

open Classical in
/-- `get_calculation_addition` with the random draws supplied as an oracle
list of candidate pairs (one per trial); returns the first candidate whose
Q-value passes the range test, with its Q-value, or `none` when the trials
are exhausted. -/
noncomputable def get_calculation_addition (lower upper : ℝ) :
    List (ℤ × ℤ) → Option (ℤ × ℤ × ℝ)
  | [] => none
  | (n1, n2) :: rest =>
    match q_addition n1 n2 with
    | none => get_calculation_addition lower upper rest
    | some q =>
      if lower ≤ q ∧ q ≤ upper then some (n1, n2, q)
      else get_calculation_addition lower upper rest

open Classical in
/-- `get_calculation_subtraction` with the random draws supplied as an
oracle list of candidate pairs `(n1, n2)` (the source draws
`n1 = randint(minint, maxint)` and then `n2 = randint(minint, n1)`). -/
noncomputable def get_calculation_subtraction (lower upper : ℝ) :
    List (ℤ × ℤ) → Option (ℤ × ℤ × ℝ)
  | [] => none
  | (n1, n2) :: rest =>
    match q_subtraction n1 n2 with
    | none => get_calculation_subtraction lower upper rest
    | some q =>
      if lower ≤ q ∧ q ≤ upper then some (n1, n2, q)
      else get_calculation_subtraction lower upper rest

/-! ## Helper lemmas -/

lemma q_addition_of_terms (n1 n2 : ℤ) (l : List ℕ)
    (h : q_additionTerms n1 n2 = some l) :
    q_addition n1 n2 =
      some ((l.map fun t : ℕ => Real.logb 10 (t : ℝ)).sum) := by
  simp [q_addition, h]

lemma q_subtraction_of_terms (n1 n2 : ℤ) (l : List ℕ)
    (h : q_subtractionTerms n1 n2 = some l) :
    q_subtraction n1 n2 =
      some ((l.map fun t : ℕ => Real.logb 10 (t : ℝ)).sum) := by
  simp [q_subtraction, h]

/-- Positions whose digit pair contains a zero are all skipped by
`q_addition`'s loop when no carry is pending. -/
lemma stepTerms_addStep_of_trivial (l : List (ℕ × ℕ))
    (h : ∀ p ∈ l, p.1 = 0 ∨ p.2 = 0) : stepTerms addStep l 0 = [] := by
  induction l with
  | nil => rfl
  | cons p rest ih =>
    have hp : p.1 = 0 ∨ p.2 = 0 := h p (List.mem_cons_self p rest)
    have hstep : addStep p.1 p.2 0 = (none, 0) := by simp [addStep, hp]
    simp only [stepTerms, hstep]
    exact ih fun q hq => h q (List.mem_cons_of_mem p hq)

/-- Every constellation sum collected by `q_addition`'s loop is at least 1. -/
lemma stepTerms_addStep_pos (l : List (ℕ × ℕ)) (carry : ℕ) :
    ∀ t ∈ stepTerms addStep l carry, 1 ≤ t := by
  induction l generalizing carry with
  | nil => intro t ht; simp [stepTerms] at ht
  | cons p rest ih =>
    intro t ht
    by_cases htriv : (p.1 = 0 ∨ p.2 = 0) ∧ carry = 0
    · simp only [stepTerms, addStep, if_pos htriv] at ht
      exact ih carry t ht
    · by_cases hlt : p.1 + p.2 + carry < 10
      · simp only [stepTerms, addStep, if_neg htriv, if_pos hlt,
          List.mem_cons] at ht
        rcases ht with rfl | ht
        · rcases Nat.eq_zero_or_pos carry with hc | hc
          · subst hc
            rcases not_or.mp (fun hor => htriv ⟨hor, rfl⟩) with ⟨h1, h2⟩
            omega
          · omega
        · exact ih 0 t ht
      · simp only [stepTerms, addStep, if_neg htriv, if_neg hlt,
          List.mem_cons] at ht
        rcases ht with rfl | ht
        · omega
        · exact ih 1 t ht

lemma q_addition_ten_one : q_addition 10 1 = some 0 := by
  have h : q_additionTerms 10 1 = some [] := by decide
  simp [q_addition_of_terms 10 1 [] h]

/-! ## Claims -/

/-- C1: `q_subtraction(11, 2)` equals `log10(14) + log10(3)`: the units
position (d1=1, d2=2, carry=0) needs a borrow and contributes
`log10(1+2+1+10+0) = log10 14`, and the tens position (d1=1, d2=0,
incoming carry=1) is not trivial despite d2=0 and contributes
`log10(1+0+1+1) = log10 3`. -/
theorem claim_C1_q_subtraction_eleven_two :
    q_subtraction 11 2 = some (Real.logb 10 14 + Real.logb 10 3) := by
  have h : q_subtractionTerms 11 2 = some [14, 3] := by decide
  rw [q_subtraction_of_terms 11 2 [14, 3] h]
  norm_num

/-- C2: whenever, after zero-padding, every digit position has `d1 = 0` or
`d2 = 0` (hence no carry ever arises), `q_addition` returns 0; in
particular `q_addition 10 1 = 0`, while `q_addition 1 1 = log10 4 ≠ 0`. -/
theorem claim_C2_zero_digit_positions_give_zero (n1 n2 : ℤ)
    (h1 : 0 < n1) (h2 : 0 < n2)
    (h : ∀ p ∈ alignedPairs n1.toNat n2.toNat, p.1 = 0 ∨ p.2 = 0) :
    q_addition n1 n2 = some 0 ∧ q_addition 10 1 = some 0 ∧
    q_addition 1 1 = some (Real.logb 10 4) ∧ Real.logb 10 4 ≠ 0 := by
  refine ⟨?_, q_addition_ten_one, ?_, ?_⟩
  · have hterms : q_additionTerms n1 n2 =
        some (stepTerms addStep (alignedPairs n1.toNat n2.toNat) 0) := by
      simp [q_additionTerms, h1, h2]
    rw [hterms.trans (by rw [stepTerms_addStep_of_trivial _ h]) |>
      (q_addition_of_terms n1 n2 [] ·)]
    simp
  · have h4 : q_additionTerms 1 1 = some [4] := by decide
    rw [q_addition_of_terms 1 1 [4] h4]
    norm_num
  · exact ne_of_gt (Real.logb_pos (by norm_num) (by norm_num))

theorem claim_C2_witness :
    (0 < (10 : ℤ)) ∧ (0 < (1 : ℤ)) ∧
    (∀ p ∈ alignedPairs (10 : ℤ).toNat (1 : ℤ).toNat, p.1 = 0 ∨ p.2 = 0) ∧
    q_addition 10 1 = some 0 :=
  ⟨by decide, by decide, by decide,
    (claim_C2_zero_digit_positions_give_zero 10 1 (by decide) (by decide)
      (by decide)).1⟩

/-- C3: `q_addition n1 n2` returns the invalid sentinel `none` if and only
if `n1 ≤ 0` or `n2 ≤ 0`; for positive inputs it returns a numeric value
(`some q`, distinguishable from the sentinel even when `q = 0`). -/
theorem claim_C3_q_addition_none_iff (n1 n2 : ℤ) :
    q_addition n1 n2 = none ↔ n1 ≤ 0 ∨ n2 ≤ 0 := by
  unfold q_addition q_additionTerms
  by_cases h : 0 < n1 ∧ 0 < n2
  · simp only [h, if_true, Option.map_some]
    constructor
    · intro hc; exact absurd hc (by simp)
    · intro hc; omega
  · simp only [h, if_false, Option.map_none]
    constructor
    · intro _; omega
    · intro _; rfl

/-- C7 counterexample: with `minint = 1` and `maxint = 9`, the draw
`n1 = 1`, `n2 = 1` satisfies the sampling constraints of
`get_calculation_subtraction` (`minint ≤ n1 ≤ maxint` and
`minint ≤ n2 ≤ n1`), yet `q_subtraction 1 1` takes the invalid-input
branch and returns the sentinel: the branch is reachable during the
search. -/
theorem claim_C7_counterexample :
    ((1 : ℤ) ≤ 1 ∧ (1 : ℤ) ≤ 9 ∧ (1 : ℤ) ≤ 1 ∧ (1 : ℤ) ≤ 1) ∧
    q_subtraction 1 1 = none := by
  refine ⟨by decide, ?_⟩
  have h : q_subtractionTerms 1 1 = none := by decide
  simp [q_subtraction, h]

/-- C7 (amended): every pair sampled by `get_calculation_subtraction` with
`minint ≥ 1` satisfies `1 ≤ n2 ≤ n1`; a draw with `n2 < n1` satisfies
`q_subtraction`'s precondition and yields a numeric Q-value, but the draw
`n2 = n1` is possible and then `q_subtraction` returns the `none`
sentinel, which the search treats as a failed range test (skipping the
candidate) rather than an error. -/
theorem claim_C7_amended_sampled_pairs (minint n1 n2 : ℤ)
    (hm : 1 ≤ minint) (h1 : minint ≤ n1) (h2 : minint ≤ n2) (_h3 : n2 ≤ n1) :
    (n2 < n1 → ∃ q, q_subtraction n1 n2 = some q) ∧
    (n2 = n1 → q_subtraction n1 n2 = none ∧
      ∀ lower upper : ℝ, ∀ rest : List (ℤ × ℤ),
        get_calculation_subtraction lower upper ((n1, n2) :: rest) =
          get_calculation_subtraction lower upper rest) := by
  constructor
  · intro hlt
    have hg : 0 < n1 ∧ 0 < n2 ∧ n2 < n1 := by omega
    have ht : q_subtractionTerms n1 n2 =
        some (stepTerms subStep (alignedPairs n1.toNat n2.toNat) 0) := by
      simp [q_subtractionTerms, hg]
    exact ⟨_, q_subtraction_of_terms n1 n2 _ ht⟩
  · intro heq
    have hg : ¬(0 < n1 ∧ 0 < n2 ∧ n2 < n1) := by omega
    have hnone : q_subtraction n1 n2 = none := by
      simp [q_subtraction, q_subtractionTerms, hg]
    exact ⟨hnone, fun lower upper rest => by
      simp only [get_calculation_subtraction, hnone]⟩

theorem claim_C7_amended_witness :
    ((1 : ℤ) ≤ 1 ∧ (1 : ℤ) ≤ 2 ∧ (1 : ℤ) ≤ 1 ∧ (1 : ℤ) ≤ 2) ∧
    (∃ q, q_subtraction 2 1 = some q) :=
  ⟨by decide,
    (claim_C7_amended_sampled_pairs 1 2 1 (by decide) (by decide) (by decide)
      (by decide)).1 (by decide)⟩

/-- C8: for all `n1 > 0` and `n2 > 0`, `q_addition n1 n2` is a numeric
value that is non-negative: every accumulated contribution is the `log10`
of a constellation sum that is at least 1. -/
theorem claim_C8_q_addition_nonneg (n1 n2 : ℤ) (h1 : 0 < n1) (h2 : 0 < n2) :
    ∃ q, q_addition n1 n2 = some q ∧ 0 ≤ q := by
  have hterms : q_additionTerms n1 n2 =
      some (stepTerms addStep (alignedPairs n1.toNat n2.toNat) 0) := by
    simp [q_additionTerms, h1, h2]
  have hnn : (0 : ℝ) ≤
      (((stepTerms addStep (alignedPairs n1.toNat n2.toNat) 0).map
        fun t : ℕ => Real.logb 10 (t : ℝ)).sum) := by
    apply List.sum_nonneg
    intro r hr
    obtain ⟨t, ht, hft⟩ := List.mem_map.mp hr
    have h1t : 1 ≤ t := stepTerms_addStep_pos _ 0 t ht
    rw [← hft]
    exact Real.logb_nonneg (by norm_num) (by exact_mod_cast h1t)
  exact ⟨_, q_addition_of_terms n1 n2 _ hterms, hnn⟩

theorem claim_C8_witness :
    (0 < (1 : ℤ)) ∧ ∃ q, q_addition 1 1 = some q ∧ 0 ≤ q :=
  ⟨by decide, claim_C8_q_addition_nonneg 1 1 (by decide) (by decide)⟩

/-- C10: in any non-trivial subtraction step (carry ∈ {0,1}), the
constellation sum depends on only one digit: with no borrow
(`d1 - d2 - carry ≥ 0`) it is `2*d1 + carry`, independent of `d2`; with a
borrow it is `2*d2 + 10 + carry`, independent of `d1`. -/
theorem claim_C10_substep_one_digit (d1 d2 carry : ℕ) (hc : carry ≤ 1)
    (hnt : ¬(d2 = 0 ∧ carry = 0)) :
    (0 ≤ (d1 : ℤ) - d2 - carry →
      (subStep d1 d2 carry).1 = some (2 * d1 + carry)) ∧
    ((d1 : ℤ) - d2 - carry < 0 →
      (subStep d1 d2 carry).1 = some (2 * d2 + 10 + carry)) := by
  constructor
  · intro hge
    simp only [subStep, if_neg hnt, if_pos hge]
    congr 1
    omega
  · intro hlt
    simp only [subStep, if_neg hnt, if_neg (not_le.mpr hlt)]
    congr 1
    omega

theorem claim_C10_witness :
    (0 : ℕ) ≤ 1 ∧ ¬((2 : ℕ) = 0 ∧ (0 : ℕ) = 0) ∧
    (subStep 1 2 0).1 = some (2 * 2 + 10 + 0) :=
  ⟨by decide, by decide,
    (claim_C10_substep_one_digit 1 2 0 (by decide) (by decide)).2 (by decide)⟩

/-- `addStep` is symmetric in the two digits. -/
lemma addStep_comm (d1 d2 c : ℕ) : addStep d2 d1 c = addStep d1 d2 c := by
  unfold addStep
  simp only [show (d2 = 0 ∨ d1 = 0) ↔ (d1 = 0 ∨ d2 = 0) from or_comm,
    Nat.add_comm d2 d1]

/-- Swapping every digit pair does not change the terms collected by
`q_addition`'s loop. -/
lemma stepTerms_addStep_swap (l : List (ℕ × ℕ)) (c : ℕ) :
    stepTerms addStep (l.map Prod.swap) c = stepTerms addStep l c := by
  induction l generalizing c with
  | nil => rfl
  | cons p rest ih =>
    simp only [List.map_cons, stepTerms, Prod.fst_swap, Prod.snd_swap,
      addStep_comm]
    rcases hs : addStep p.1 p.2 c with ⟨o, c1⟩
    cases o with
    | none => simpa using ih c1
    | some t => simpa using ih c1

/-- Swapping the operands swaps each aligned digit pair. -/
lemma alignedPairs_swap (a b : ℕ) :
    alignedPairs b a = (alignedPairs a b).map Prod.swap := by
  simp only [alignedPairs]
  rw [max_comm (pyDigits b).length (pyDigits a).length, List.zip_swap]

/-- C9: `q_addition` is symmetric in its operands for equal-length,
carry-free cases (the digit counts agree and no positionwise digit sum
reaches 10). -/
theorem claim_C9_q_addition_symm (n1 n2 : ℤ) (h1 : 0 < n1) (h2 : 0 < n2)
    (_hlen : (pyDigits n1.toNat).length = (pyDigits n2.toNat).length)
    (_hcf : ∀ p ∈ alignedPairs n1.toNat n2.toNat, p.1 + p.2 < 10) :
    q_addition n1 n2 = q_addition n2 n1 := by
  have hterms1 : q_additionTerms n1 n2 =
      some (stepTerms addStep (alignedPairs n1.toNat n2.toNat) 0) := by
    simp [q_additionTerms, h1, h2]
  have hterms2 : q_additionTerms n2 n1 =
      some (stepTerms addStep (alignedPairs n2.toNat n1.toNat) 0) := by
    simp [q_additionTerms, h1, h2]
  rw [q_addition_of_terms n1 n2 _ hterms1, q_addition_of_terms n2 n1 _ hterms2,
    alignedPairs_swap n1.toNat n2.toNat, stepTerms_addStep_swap]

theorem claim_C9_witness :
    (0 < (12 : ℤ)) ∧ (0 < (34 : ℤ)) ∧
    (pyDigits (12 : ℤ).toNat).length = (pyDigits (34 : ℤ).toNat).length ∧
    (∀ p ∈ alignedPairs (12 : ℤ).toNat (34 : ℤ).toNat, p.1 + p.2 < 10) ∧
    q_addition 12 34 = q_addition 34 12 :=
  ⟨by decide, by decide, by decide, by decide,
    claim_C9_q_addition_symm 12 34 (by decide) (by decide) (by decide)
      (by decide)⟩

/-- Every digit produced by `digitsLE` is below 10. -/
lemma digitsLE_lt_ten : ∀ fuel n : ℕ, ∀ d ∈ digitsLE fuel n, d < 10 := by
  intro fuel
  induction fuel with
  | zero =>
    intro n d hd
    cases n with
    | zero => simp [digitsLE] at hd
    | succ m => simp [digitsLE] at hd
  | succ f ih =>
    intro n d hd
    cases n with
    | zero => simp [digitsLE] at hd
    | succ m =>
      simp only [digitsLE, List.mem_cons] at hd
      rcases hd with rfl | hd
      · exact Nat.mod_lt _ (by norm_num)
      · exact ih _ d hd

/-- Every digit of a Python decimal string is below 10. -/
lemma pyDigits_lt_ten (n : ℕ) : ∀ d ∈ pyDigits n, d < 10 := by
  unfold pyDigits
  by_cases h : n = 0
  · simp [h]
  · simpa [h] using digitsLE_lt_ten n n

/-- Carry invariant of the multiplication loop: from a carry of at most 8,
with a single-digit multiplier and decimal digits, every outgoing carry
stays at most 8. -/
lemma multSteps_carry_le (x : ℕ) (hx : x ≤ 9) :
    ∀ l : List ℕ, (∀ d ∈ l, d < 10) → ∀ carry, carry ≤ 8 →
      ∀ p ∈ multSteps x l carry, p.2 ≤ 8 := by
  intro l
  induction l with
  | nil =>
    intro _ carry _ p hp
    simp [multSteps] at hp
  | cons m rest ih =>
    intro hdig carry hcarry p hp
    have hm : m < 10 := hdig m (List.mem_cons_self m rest)
    have hrest : ∀ d ∈ rest, d < 10 :=
      fun d hd => hdig d (List.mem_cons_of_mem m hd)
    by_cases hsmall : x * m + carry < 10
    · simp only [multSteps, if_pos hsmall, List.mem_cons] at hp
      rcases hp with rfl | hp
      · simp
      · exact ih hrest 0 (by norm_num) p hp
    · by_cases hfin : rest = [] ∧ carry = 0
      · simp only [multSteps, if_neg hsmall, if_pos hfin, List.mem_cons] at hp
        rcases hp with rfl | hp
        · simpa using hcarry
        · exact ih hrest carry hcarry p hp
      · have hc2 : (x * m + carry - (x * m + carry) % 10) / 10 ≤ 8 := by
          have hip : x * m + carry ≤ 89 := by nlinarith
          omega
        simp only [multSteps, if_neg hsmall, if_neg hfin, List.mem_cons] at hp
        rcases hp with rfl | hp
        · simpa using hc2
        · exact ih hrest _ hc2 p hp

/-- C4: during any evaluation of `q_multiplication x multiplicand` with
`2 ≤ x ≤ 9` and a non-negative multiplicand, the carry threaded between
digit positions is an integer tens-count that starts at 0 and stays in
`{0, ..., 8}` after every update. -/
theorem claim_C4_multiplication_carry_range (x : ℤ) (m : ℕ)
    (h2 : 2 ≤ x) (h9 : x ≤ 9) :
    ∃ steps, q_multiplicationSteps x m =
        some (multSteps x.toNat (pyDigits m) 0) ∧
      steps = multSteps x.toNat (pyDigits m) 0 ∧ (0 : ℕ) ≤ 8 ∧
      ∀ p ∈ steps, p.2 ≤ 8 := by
  have hg : ¬(x < 2 ∨ 9 < x) := by omega
  refine ⟨multSteps x.toNat (pyDigits m) 0, ?_, rfl, by norm_num, ?_⟩
  · simp [q_multiplicationSteps, hg]
  · exact multSteps_carry_le x.toNat (by omega) (pyDigits m)
      (pyDigits_lt_ten m) 0 (by norm_num)

theorem claim_C4_witness :
    (2 : ℤ) ≤ 9 ∧ (9 : ℤ) ≤ 9 ∧
    ∃ steps, q_multiplicationSteps 9 99 =
        some (multSteps (9 : ℤ).toNat (pyDigits 99) 0) ∧
      steps = multSteps (9 : ℤ).toNat (pyDigits 99) 0 ∧ (0 : ℕ) ≤ 8 ∧
      ∀ p ∈ steps, p.2 ≤ 8 :=
  ⟨by decide, by decide,
    claim_C4_multiplication_carry_range 9 99 (by decide) (by decide)⟩

/-- For single-digit operands the addition loop collects at most one
constellation sum, and any collected sum lies in `[1, 46]`
(at most `9 + 9 + 18 + 10`). -/
lemma single_digit_terms_shape : ∀ a, a ≤ 9 → ∀ b, b ≤ 9 →
    (stepTerms addStep (alignedPairs a b) 0).length ≤ 1 ∧
    ∀ t ∈ stepTerms addStep (alignedPairs a b) 0, 1 ≤ t ∧ t ≤ 46 := by
  decide

/-- The Q-value of any pair of single-digit operands is below 100. -/
lemma single_digit_q_lt (n1 n2 : ℤ) (h1a : 1 ≤ n1) (h1b : n1 ≤ 9)
    (h2a : 1 ≤ n2) (h2b : n2 ≤ 9) :
    ∀ q : ℝ, q_addition n1 n2 = some q → q < 100 := by
  intro q hq
  have hterms : q_additionTerms n1 n2 =
      some (stepTerms addStep (alignedPairs n1.toNat n2.toNat) 0) := by
    have hg : 0 < n1 ∧ 0 < n2 := by omega
    simp [q_additionTerms, hg]
  rw [q_addition_of_terms n1 n2 _ hterms] at hq
  have hshape := single_digit_terms_shape n1.toNat (by omega) n2.toNat
    (by omega)
  obtain ⟨hlen, hbound⟩ := hshape
  have hq46 : Real.logb 10 46 < 2 := by
    rw [Real.logb_lt_iff_lt_rpow (by norm_num) (by norm_num)]
    rw [show ((2 : ℝ)) = ((2 : ℕ) : ℝ) by norm_num, Real.rpow_natCast]
    norm_num
  rcases hl : stepTerms addStep (alignedPairs n1.toNat n2.toNat) 0 with
    _ | ⟨t, l2⟩
  · rw [hl] at hq
    simp at hq
    rw [← hq]
    norm_num
  · have hl2 : l2 = [] := by
      rw [hl] at hlen
      simpa using List.length_eq_zero.mp (by simpa using hlen)
    subst hl2
    rw [hl] at hq hbound
    simp at hq
    obtain ⟨ht1, ht46⟩ := hbound t (List.mem_cons_self t [])
    have hlogb : Real.logb 10 (t : ℝ) ≤ Real.logb 10 46 :=
      Real.logb_le_logb_of_le (by norm_num) (by exact_mod_cast ht1)
        (by exact_mod_cast ht46)
    rw [← hq]
    calc Real.logb 10 (t : ℝ) ≤ Real.logb 10 46 := hlogb
    _ < 2 := hq46
    _ < 100 := by norm_num

/-- C5: `get_calculation_addition 100 200` with operands restricted to the
single-digit range `[1, 9]` returns the failure sentinel for every possible
sequence of random draws and every trial budget: no such pair attains a
Q-value of at least 100. -/
theorem claim_C5_single_digit_search_fails (draws : List (ℤ × ℤ))
    (h : ∀ p ∈ draws, 1 ≤ p.1 ∧ p.1 ≤ 9 ∧ 1 ≤ p.2 ∧ p.2 ≤ 9) :
    get_calculation_addition 100 200 draws = none := by
  induction draws with
  | nil => rfl
  | cons p rest ih =>
    obtain ⟨a, b⟩ := p
    obtain ⟨h1a, h1b, h2a, h2b⟩ := h (a, b) (List.mem_cons_self (a, b) rest)
    have hrest := ih fun p hp => h p (List.mem_cons_of_mem (a, b) hp)
    rcases haq : q_addition a b with _ | q
    · simp only [get_calculation_addition, haq]
      exact hrest
    · have hqlt : q < 100 := single_digit_q_lt a b h1a h1b h2a h2b q haq
      simp only [get_calculation_addition, haq]
      rw [if_neg (by intro hc; linarith [hc.1])]
      exact hrest

theorem claim_C5_witness :
    (∀ p ∈ [((9 : ℤ), (9 : ℤ))], 1 ≤ p.1 ∧ p.1 ≤ 9 ∧ 1 ≤ p.2 ∧ p.2 ≤ 9) ∧
    get_calculation_addition 100 200 [((9 : ℤ), (9 : ℤ))] = none :=
  ⟨by decide, claim_C5_single_digit_search_fails [(9, 9)] (by decide)⟩

/-- A successful search result is the first draw passing the range test,
its Q-value is `q_addition` of the returned pair, and the Q-value lies in
the interval. -/
lemma get_calculation_addition_spec (lower upper : ℝ) :
    ∀ draws : List (ℤ × ℤ), ∀ n1 n2 : ℤ, ∀ q : ℝ,
      get_calculation_addition lower upper draws = some (n1, n2, q) →
      (n1, n2) ∈ draws ∧ q_addition n1 n2 = some q ∧
      lower ≤ q ∧ q ≤ upper ∧
      ∃ pre post, draws = pre ++ (n1, n2) :: post ∧
        ∀ p ∈ pre, ¬ qHit (q_addition p.1 p.2) lower upper := by
  intro draws
  induction draws with
  | nil =>
    intro n1 n2 q hres
    exact absurd hres (by simp [get_calculation_addition])
  | cons hd rest ih =>
    intro n1 n2 q hres
    obtain ⟨a, b⟩ := hd
    rcases haq : q_addition a b with _ | q0
    · rw [get_calculation_addition, haq] at hres
      obtain ⟨hmem, heq, hlo, hhi, pre, post, hsplit, hpre⟩ :=
        ih n1 n2 q hres
      refine ⟨List.mem_cons_of_mem _ hmem, heq, hlo, hhi,
        (a, b) :: pre, post, by rw [hsplit]; rfl, ?_⟩
      intro p hp
      rcases List.mem_cons.mp hp with rfl | hp
      · simp [qHit, haq]
      · exact hpre p hp
    · rw [get_calculation_addition, haq] at hres
      dsimp only at hres
      by_cases hin : lower ≤ q0 ∧ q0 ≤ upper
      · rw [if_pos hin] at hres
        obtain ⟨h1, h2, h3⟩ : a = n1 ∧ b = n2 ∧ q0 = q := by
          have := Option.some.inj hres
          exact ⟨congrArg Prod.fst this,
            congrArg Prod.fst (congrArg Prod.snd this),
            congrArg Prod.snd (congrArg Prod.snd this)⟩
        subst h1; subst h2; subst h3
        exact ⟨List.mem_cons_self _ _, haq, hin.1, hin.2, [], rest, rfl,
          by simp⟩
      · rw [if_neg hin] at hres
        obtain ⟨hmem, heq, hlo, hhi, pre, post, hsplit, hpre⟩ :=
          ih n1 n2 q hres
        refine ⟨List.mem_cons_of_mem _ hmem, heq, hlo, hhi,
          (a, b) :: pre, post, by rw [hsplit]; rfl, ?_⟩
        intro p hp
        rcases List.mem_cons.mp hp with rfl | hp
        · simpa [qHit, haq] using hin
        · exact hpre p hp

/-- C6: whenever the search returns a non-failure triple `(n1, n2, q)`,
the operands respect the draw bounds, `q` is exactly `q_addition n1 n2`,
`q` lies in `[lower, upper]` inclusive, and `(n1, n2)` is the first
candidate in the sampled sequence whose Q-value lies in the interval. -/
theorem claim_C6_search_result_spec (lower upper : ℝ) (minint maxint : ℤ)
    (draws : List (ℤ × ℤ)) (n1 n2 : ℤ) (q : ℝ)
    (hb : ∀ p ∈ draws,
      minint ≤ p.1 ∧ p.1 ≤ maxint ∧ minint ≤ p.2 ∧ p.2 ≤ maxint)
    (hres : get_calculation_addition lower upper draws = some (n1, n2, q)) :
    (minint ≤ n1 ∧ n1 ≤ maxint ∧ minint ≤ n2 ∧ n2 ≤ maxint) ∧
    q_addition n1 n2 = some q ∧ lower ≤ q ∧ q ≤ upper ∧
    ∃ pre post, draws = pre ++ (n1, n2) :: post ∧
      ∀ p ∈ pre, ¬ qHit (q_addition p.1 p.2) lower upper := by
  obtain ⟨hmem, heq, hlo, hhi, hfirst⟩ :=
    get_calculation_addition_spec lower upper draws n1 n2 q hres
  exact ⟨hb (n1, n2) hmem, heq, hlo, hhi, hfirst⟩

theorem claim_C6_witness :
    (∀ p ∈ [((10 : ℤ), (1 : ℤ))],
      1 ≤ p.1 ∧ p.1 ≤ 10 ∧ 1 ≤ p.2 ∧ p.2 ≤ 10) ∧
    ((1 ≤ (10 : ℤ) ∧ (10 : ℤ) ≤ 10 ∧ 1 ≤ (1 : ℤ) ∧ (1 : ℤ) ≤ 10) ∧
      q_addition 10 1 = some 0 ∧ (0 : ℝ) ≤ 0 ∧ (0 : ℝ) ≤ 0 ∧
      ∃ pre post, [((10 : ℤ), (1 : ℤ))] = pre ++ (10, 1) :: post ∧
        ∀ p ∈ pre, ¬ qHit (q_addition p.1 p.2) 0 0) := by
  have hres : get_calculation_addition 0 0 [((10 : ℤ), (1 : ℤ))] =
      some (10, 1, 0) := by
    rw [get_calculation_addition, q_addition_ten_one]
    dsimp only
    rw [if_pos ⟨le_refl (0 : ℝ), le_refl (0 : ℝ)⟩]
  exact ⟨by decide,
    claim_C6_search_result_spec 0 0 1 10 [(10, 1)] 10 1 0 (by decide) hres⟩

theorem claim_C3_witness : q_addition 0 5 = none :=
  (claim_C3_q_addition_none_iff 0 5).mpr (Or.inl (le_refl 0))
